import Mathlib

/-!
Verification of the short-DNA-sequence container (`sseq.rs`) of the
`fastq_set` repository.

Bytes are modelled as natural numbers (their ASCII codes):
A = 65, C = 67, G = 71, T = 84, N = 78, and a sequence container as the
list of its stored bytes (the container is a pure value type whose
equality is equality of the stored symbol sequences).

Rust functions that can panic are modelled as returning an `Outcome`:
`Outcome.ok` is a normal return and `Outcome.panicked` models a Rust
panic (process abort), tagged with the information carried by the panic
site.
-/

namespace FastqSet

/-- The allowed alphabet, byte values of the string "ACGTN"
(`const UPPER_ACGTN` in sseq.rs). -/
def UPPER_ACGTN : List Nat := [65, 67, 71, 84, 78]

/-- Index of the 'N' base inside `UPPER_ACGTN` (`const N_BASE_INDEX`). -/
def N_BASE_INDEX : Nat := 4

/-- The distinct panic sites of sseq.rs (and of the capacity check of the
`ByteArray` backing store).  Each constructor records the data carried by
the corresponding panic message. -/
inductive PanicKind where
  /-- Panic "Non ACGTN character s at position i" raised by
  `SSeqContents::validate_bytes`. -/
  | invalidAlphabet (byte : Nat) (pos : Nat)
  /-- Capacity overflow of the fixed-size backing array. -/
  | capacityExceeded
  /-- The assertion `!self.is_empty()` in `is_homopolymer`. -/
  | emptySequence
  /-- Panic "non-ACGT sequence" in `encode_2bit_u32`. -/
  | unsupportedSymbol
  /-- The assertion `self.len() <= 16` in `encode_2bit_u32`. -/
  | encodeLengthExceeded
deriving DecidableEq

/-- Result of running a Rust function that may panic: either a normal
return value or an abort of the process via panic. -/
inductive Outcome (α : Type) where
  | ok : α → Outcome α
  | panicked : PanicKind → Outcome α
deriving DecidableEq

/-- True when the outcome is a panic, i.e. the program aborted instead of
returning a value. -/
def Outcome.isAbort {α : Type} : Outcome α → Bool
  | .ok _ => false
  | .panicked _ => true

/-- Sequencing of possibly-panicking computations: a panic propagates. -/
def Outcome.bind {α β : Type} : Outcome α → (α → Outcome β) → Outcome β
  | .ok a, f => f a
  | .panicked p, _ => .panicked p

/-- The loop of `SSeqContents::validate_bytes`, carrying the running
index `i`: panics with the offending byte and its position at the first
byte outside `UPPER_ACGTN`. -/
def validateBytesFrom (i : Nat) : List Nat → Outcome Unit
  | [] => .ok ()
  | s :: rest =>
    if s ∈ UPPER_ACGTN then validateBytesFrom (i + 1) rest
    else .panicked (.invalidAlphabet s i)

/-- `SSeqContents::validate_bytes` (sseq.rs lines 20-26). -/
def validate_bytes (seq : List Nat) : Outcome Unit :=
  validateBytesFrom 0 seq

/-- Modelled from the spec: `ByteArray::from_bytes` (the `ByteArray`
implementation in src/array.rs is not part of the sources).  Per spec
section 4.1 it validates every byte (delegating to the source-level
`validate_bytes`, which reports the first offending byte and position)
and rejects inputs longer than the capacity `N`; the repository's own
tests (`test_sseq_invalid_1/2`, `test_sseq_too_long`) pin both failures
as panics. On success the container holds exactly the input bytes. -/
def from_bytes (N : Nat) (seq : List Nat) : Outcome (List Nat) :=
  match validate_bytes seq with
  | .panicked p => .panicked p
  | .ok _ => if seq.length ≤ N then .ok seq else .panicked .capacityExceeded

/-- Modelled from the spec: `ByteArray::new` — an empty container. -/
def sseq_new : List Nat := []

/-- Modelled from the spec: `ByteArray::push` — appends validated bytes
atomically, rejecting the append if the total length would exceed the
capacity `N` (same alphabet rule as construction). -/
def push (N : Nat) (cur bytes : List Nat) : Outcome (List Nat) :=
  match validate_bytes bytes with
  | .panicked p => .panicked p
  | .ok _ =>
    if cur.length + bytes.length ≤ N then .ok (cur ++ bytes)
    else .panicked .capacityExceeded

/-- `as_bytes` returns the stored bytes in order (the container is
modelled by exactly that byte list). -/
def as_bytes (s : List Nat) : List Nat := s

/-- `SSeqGen::is_homopolymer` (sseq.rs lines 61-64): asserts the
sequence is non-empty, then checks that every byte equals the first. -/
def is_homopolymer (s : List Nat) : Outcome Bool :=
  if s.isEmpty then .panicked .emptySequence
  else .ok (s.all (fun c => c == s.headD 0))

/-- `SSeqGen::has_homopolymer_suffix` (sseq.rs lines 67-69):
`self.len() >= n && self.iter().rev().take(n).all(|&x| x == c)`. -/
def has_homopolymer_suffix (s : List Nat) (c : Nat) (n : Nat) : Bool :=
  decide (n ≤ s.length) && (s.reverse.take n).all (fun x => x == c)

/-- `SSeqGen::has_polyt_suffix` (sseq.rs lines 72-74). -/
def has_polyt_suffix (s : List Nat) (n : Nat) : Bool :=
  has_homopolymer_suffix s 84 n

/-- The per-symbol branch of `encode_2bit_u32`: A/C/G/T map to 0/1/2/3,
anything else panics "non-ACGT sequence". -/
def base_val (b : Nat) : Outcome Nat :=
  if b = 65 then .ok 0
  else if b = 67 then .ok 1
  else if b = 71 then .ok 2
  else if b = 84 then .ok 3
  else .panicked .unsupportedSymbol

/-- The loop of `encode_2bit_u32` (sseq.rs lines 82-94):
`for (bit_pos, str_pos) in (0..len).rev().enumerate()` visits
`str_pos = L - 1 - bit_pos` for `bit_pos = 0, 1, ...`, and ORs
`byte << (bit_pos * 2)` into the accumulator `res`.  All arithmetic fits
in a u32 (the result is below 4^16 = 2^32), so naturals are faithful. -/
def encode_go (seq : List Nat) (L : Nat) (bit_pos : Nat) (res : Nat) : Outcome Nat :=
  if _h : bit_pos < L then
    (base_val (seq.getD (L - 1 - bit_pos) 0)).bind fun byte =>
      encode_go seq L (bit_pos + 1) (res ||| (byte <<< (bit_pos * 2)))
  else .ok res
termination_by L - bit_pos

/-- `SSeqGen::encode_2bit_u32` (sseq.rs lines 77-97): asserts the length
is at most 16, then packs the symbols two bits each. -/
def encode_2bit_u32 (seq : List Nat) : Outcome Nat :=
  if seq.length ≤ 16 then encode_go seq seq.length 0 0
  else .panicked .encodeLengthExceeded

/-- The policy of `one_hamming_iter` (`enum HammingIterOpt`). -/
inductive HammingIterOpt where
  | MutateNBase
  | SkipNBase

/-- The `skip_n` field computed by `SSeqOneHammingIter::new` from the
policy (sseq.rs lines 130-133). -/
def HammingIterOpt.skip_n : HammingIterOpt → Bool
  | .SkipNBase => true
  | .MutateNBase => false

/-- The items yielded by repeatedly calling `SSeqOneHammingIter::next`
(sseq.rs lines 141-162) from the state `(position, chars_index)`,
collected in order.  The three branches are exactly those of `next`:
past-the-end returns nothing; an 'N' under the skip policy, or an
exhausted candidate index, advances the position; a candidate equal to
the current base is skipped; otherwise the sequence with the candidate
substituted at `position` is yielded and the candidate index advances. -/
def hammingItems (source : List Nat) (skip_n : Bool) (position chars_index : Nat) :
    List (List Nat) :=
  if h : position < source.length then
    if h1 : (skip_n = true ∧ source.getD position 0 = UPPER_ACGTN.getD N_BASE_INDEX 0)
        ∨ N_BASE_INDEX ≤ chars_index then
      hammingItems source skip_n (position + 1) 0
    else if h2 : source.getD position 0 = UPPER_ACGTN.getD chars_index 0 then
      hammingItems source skip_n position (chars_index + 1)
    else
      source.set position (UPPER_ACGTN.getD chars_index 0) ::
        hammingItems source skip_n position (chars_index + 1)
  else []
termination_by (source.length - position) * 6 + (4 - chars_index)
decreasing_by
  · omega
  · simp only [N_BASE_INDEX, not_or, not_le] at h1
    omega
  · simp only [N_BASE_INDEX, not_or, not_le] at h1
    omega

/-- `SSeqGen::one_hamming_iter` (sseq.rs line 99) collected to a list:
`SSeqOneHammingIter::new` starts at `position = 0`, `chars_index = 0`. -/
def one_hamming_iter (seq : List Nat) (opt : HammingIterOpt) : List (List Nat) :=
  hammingItems seq opt.skip_n 0 0

/-- Closed form of the collected iterator output, established equal to
`hammingItems` below: position by position from the left, the candidates
A, C, G, T are substituted in order, skipping the candidate equal to the
current base, and an 'N' position contributes nothing under the skip
policy. -/
def oneHammingOut (skip_n : Bool) : List Nat → List (List Nat)
  | [] => []
  | b :: rest =>
    (if skip_n = true ∧ b = 78 then []
     else List.filterMap (fun c => if b = c then none else some (c :: rest)) [65, 67, 71, 84])
      ++ (oneHammingOut skip_n rest).map (fun x => b :: x)

theorem hammingItems_shift_aux (b : Nat) (rest : List Nat) (skip : Bool) :
    ∀ n p ci, (rest.length - p) * 6 + (4 - ci) ≤ n →
      hammingItems (b :: rest) skip (p + 1) ci =
        (hammingItems rest skip p ci).map (fun x => b :: x) := by
  intro n
  induction n with
  | zero =>
    intro p ci h
    have hp : ¬p < rest.length := by omega
    rw [hammingItems.eq_def (b :: rest) skip (p + 1) ci, hammingItems.eq_def rest skip p ci]
    simp [hp]
  | succ n ih =>
    intro p ci h
    by_cases hp : p < rest.length
    · rw [hammingItems.eq_def (b :: rest) skip (p + 1) ci, hammingItems.eq_def rest skip p ci]
      have hp' : p + 1 < (b :: rest).length := by simp [hp]
      rw [dif_pos hp', dif_pos hp]
      simp only [List.getD_cons_succ, List.set_cons_succ, N_BASE_INDEX]
      split_ifs with h1 h2
      · exact ih (p + 1) 0 (by omega)
      · have hci : ci < 4 := by
          rcases Nat.lt_or_ge ci 4 with hlt | hge
          · exact hlt
          · exact absurd (Or.inr hge) h1
        exact ih p (ci + 1) (by omega)
      · have hci : ci < 4 := by
          rcases Nat.lt_or_ge ci 4 with hlt | hge
          · exact hlt
          · exact absurd (Or.inr hge) h1
        rw [List.map_cons, ih p (ci + 1) (by omega)]
    · rw [hammingItems.eq_def (b :: rest) skip (p + 1) ci, hammingItems.eq_def rest skip p ci]
      simp [hp]

/-- Iterating over a cons cell from any position past the head is the
same as iterating over the tail one position earlier, with the head
prepended to every yielded sequence. -/
theorem hammingItems_shift (b : Nat) (rest : List Nat) (skip : Bool) (p ci : Nat) :
    hammingItems (b :: rest) skip (p + 1) ci =
      (hammingItems rest skip p ci).map (fun x => b :: x) :=
  hammingItems_shift_aux b rest skip ((rest.length - p) * 6 + (4 - ci)) p ci le_rfl

/-- Under the skip policy an 'N' at the current position yields nothing
and the iterator moves to the next position. -/
theorem hammingItems_skipN (rest : List Nat) (ci : Nat) :
    hammingItems (78 :: rest) true 0 ci = hammingItems (78 :: rest) true 1 0 := by
  rw [hammingItems.eq_def (78 :: rest) true 0 ci]
  simp [N_BASE_INDEX, UPPER_ACGTN]

/-- Scanning the candidate alphabet at position 0: starting from
candidate index 0, the iterator yields the substitutions of position 0
in candidate order (skipping the candidate equal to the base), then
continues from position 1. -/
theorem hammingItems_pos0 (b : Nat) (rest : List Nat) (skip : Bool)
    (hb : ¬(skip = true ∧ b = 78)) :
    hammingItems (b :: rest) skip 0 0 =
      (List.filterMap (fun c => if b = c then none else some (c :: rest)) [65, 67, 71, 84])
        ++ hammingItems (b :: rest) skip 1 0 := by
  have h4 : hammingItems (b :: rest) skip 0 4 = hammingItems (b :: rest) skip 1 0 := by
    rw [hammingItems.eq_def (b :: rest) skip 0 4]
    simp [N_BASE_INDEX]
  have h3 : hammingItems (b :: rest) skip 0 3 =
      (List.filterMap (fun c => if b = c then none else some (c :: rest)) [84])
        ++ hammingItems (b :: rest) skip 1 0 := by
    rw [hammingItems.eq_def (b :: rest) skip 0 3]
    by_cases hc : b = 84
    · subst hc; simp [N_BASE_INDEX, UPPER_ACGTN, h4]
    · simp [N_BASE_INDEX, UPPER_ACGTN, hb, hc, h4]
  have h2 : hammingItems (b :: rest) skip 0 2 =
      (List.filterMap (fun c => if b = c then none else some (c :: rest)) [71, 84])
        ++ hammingItems (b :: rest) skip 1 0 := by
    rw [hammingItems.eq_def (b :: rest) skip 0 2]
    by_cases hc : b = 71
    · subst hc; simp [N_BASE_INDEX, UPPER_ACGTN, h3]
    · simp [N_BASE_INDEX, UPPER_ACGTN, hb, hc, h3]
  have h1 : hammingItems (b :: rest) skip 0 1 =
      (List.filterMap (fun c => if b = c then none else some (c :: rest)) [67, 71, 84])
        ++ hammingItems (b :: rest) skip 1 0 := by
    rw [hammingItems.eq_def (b :: rest) skip 0 1]
    by_cases hc : b = 67
    · subst hc; simp [N_BASE_INDEX, UPPER_ACGTN, h2]
    · simp [N_BASE_INDEX, UPPER_ACGTN, hb, hc, h2]
  rw [hammingItems.eq_def (b :: rest) skip 0 0]
  by_cases hc : b = 65
  · subst hc; simp [N_BASE_INDEX, UPPER_ACGTN, h1]
  · simp [N_BASE_INDEX, UPPER_ACGTN, hb, hc, h1]

/-- Bridge: the collected output of the source iterator equals the
structural closed form. -/
theorem hammingItems_eq_out (skip : Bool) :
    ∀ seq : List Nat, hammingItems seq skip 0 0 = oneHammingOut skip seq := by
  intro seq
  induction seq with
  | nil =>
    rw [hammingItems.eq_def [] skip 0 0]
    simp [oneHammingOut]
  | cons b rest ih =>
    by_cases hb : skip = true ∧ b = 78
    · obtain ⟨hs, hn⟩ := hb
      subst hs; subst hn
      rw [hammingItems_skipN rest 0, hammingItems_shift 78 rest true 0 0, ih]
      simp [oneHammingOut]
    · rw [hammingItems_pos0 b rest skip hb, hammingItems_shift b rest skip 0 0, ih]
      simp [oneHammingOut, hb]

/-- The collected source iterator output in closed form. -/
theorem one_hamming_iter_eq (seq : List Nat) (opt : HammingIterOpt) :
    one_hamming_iter seq opt = oneHammingOut opt.skip_n seq :=
  hammingItems_eq_out opt.skip_n seq

/-- Number of positions at which two equal-length byte sequences differ
(Hamming distance; compares the overlap for unequal lengths). -/
def diffCount : List Nat → List Nat → Nat
  | x :: xs, y :: ys => (if x = y then 0 else 1) + diffCount xs ys
  | _, _ => 0

theorem diffCount_self : ∀ s : List Nat, diffCount s s = 0
  | [] => rfl
  | x :: xs => by simp [diffCount, diffCount_self xs]

/-- The candidate substitutions at the head position, as a map over the
filtered candidate alphabet. -/
theorem filterMap_if_eq (b : Nat) (rest : List Nat) (l : List Nat) :
    List.filterMap (fun c => if b = c then none else some (c :: rest)) l =
      (l.filter (fun c => !(b == c))).map (fun c => c :: rest) := by
  induction l with
  | nil => rfl
  | cons a l ih =>
    by_cases hba : b = a
    · subst hba
      simp [List.filterMap_cons, List.filter_cons, ih]
    · simp [List.filterMap_cons, List.filter_cons, hba, ih]

theorem oneHammingOut_length (seq : List Nat) (hv : ∀ b ∈ seq, b ∈ UPPER_ACGTN) :
    (oneHammingOut true seq).length = 3 * seq.countP (fun b => !(b == 78))
      ∧ (oneHammingOut false seq).length =
          3 * seq.countP (fun b => !(b == 78)) + 4 * seq.countP (fun b => b == 78) := by
  induction seq with
  | nil => simp [oneHammingOut]
  | cons b rest ih =>
    have hb : b ∈ UPPER_ACGTN := hv b (by simp)
    obtain ⟨ih1, ih2⟩ := ih fun x hx => hv x (by simp [hx])
    simp only [UPPER_ACGTN, List.mem_cons, List.not_mem_nil, or_false] at hb
    rcases hb with hb | hb | hb | hb | hb <;> subst hb <;>
      simp [oneHammingOut, List.countP_cons, ih1, ih2] <;> omega

theorem oneHammingOut_nodup (skip : Bool) (seq : List Nat) : (oneHammingOut skip seq).Nodup := by
  induction seq with
  | nil => simp [oneHammingOut]
  | cons b rest ih =>
    rw [oneHammingOut]
    apply List.Nodup.append
    · split_ifs with hskip
      · exact List.nodup_nil
      · rw [filterMap_if_eq]
        apply List.Nodup.map
        · intro c c' hcc
          exact (List.cons.injEq _ _ _ _).mp hcc |>.1
        · exact List.Nodup.filter _ (by decide)
    · exact ih.map fun x y hxy => (List.cons.injEq _ _ _ _).mp hxy |>.2
    · intro x hx hx'
      obtain ⟨y, _, hy⟩ := List.mem_map.mp hx'
      split_ifs at hx with hskip
      · simp at hx
      · rw [filterMap_if_eq] at hx
        obtain ⟨c, hc, hxc⟩ := List.mem_map.mp hx
        have hbc : ¬(b = c) := by simpa using (List.mem_filter.mp hc).2
        rw [← hxc] at hy
        exact hbc ((List.cons.injEq _ _ _ _).mp hy |>.1)

theorem oneHammingOut_mem (skip : Bool) (seq : List Nat) (x : List Nat)
    (hx : x ∈ oneHammingOut skip seq) : x.length = seq.length ∧ diffCount seq x = 1 := by
  induction seq generalizing x with
  | nil => simp [oneHammingOut] at hx
  | cons b rest ih =>
    rw [oneHammingOut] at hx
    rcases List.mem_append.mp hx with hx | hx
    · split_ifs at hx with hskip
      · simp at hx
      · rw [filterMap_if_eq] at hx
        obtain ⟨c, hc, rfl⟩ := List.mem_map.mp hx
        have hbc : ¬(b = c) := by simpa using (List.mem_filter.mp hc).2
        exact ⟨by simp, by simp [diffCount, hbc, diffCount_self]⟩
    · obtain ⟨y, hy, rfl⟩ := List.mem_map.mp hx
      obtain ⟨hl, hd⟩ := ih y hy
      exact ⟨by simp [hl], by simp [diffCount, hd]⟩

/-- Claim C1: for the source "GAT" (capacity-23 container) the Skip-N
one-Hamming iterator yields exactly AAT, CAT, TAT, GCT, GGT, GTT, GAA,
GAC, GAG in that order, and for "GNT" exactly ANT, CNT, TNT, GNA, GNC,
GNG in that order (the 'N' at position 1 is skipped). -/
theorem claim_C1_one_hamming_worked_examples :
    one_hamming_iter [71, 65, 84] HammingIterOpt.SkipNBase =
        [[65, 65, 84], [67, 65, 84], [84, 65, 84], [71, 67, 84], [71, 71, 84],
          [71, 84, 84], [71, 65, 65], [71, 65, 67], [71, 65, 71]]
      ∧ one_hamming_iter [71, 78, 84] HammingIterOpt.SkipNBase =
        [[65, 78, 84], [67, 78, 84], [84, 78, 84], [71, 78, 65], [71, 78, 67],
          [71, 78, 71]] := by
  constructor
  · rw [one_hamming_iter_eq]; decide
  · rw [one_hamming_iter_eq]; decide

/-- Claim C2: for every valid sequence (bytes over ACGTN, length at most
23) the iterator yields 3 sequences per non-'N' position under the Skip
policy, and additionally 4 per 'N' position under the Mutate policy; the
yielded sequences are pairwise distinct, and each has the source's
length and differs from the source at exactly one position. -/
theorem claim_C2_one_hamming_census (seq : List Nat)
    (hv : ∀ b ∈ seq, b ∈ UPPER_ACGTN) (_hlen : seq.length ≤ 23) :
    (one_hamming_iter seq HammingIterOpt.SkipNBase).length =
        3 * seq.countP (fun b => !(b == 78))
      ∧ (one_hamming_iter seq HammingIterOpt.MutateNBase).length =
          3 * seq.countP (fun b => !(b == 78)) + 4 * seq.countP (fun b => b == 78)
      ∧ (∀ opt : HammingIterOpt, (one_hamming_iter seq opt).Nodup)
      ∧ (∀ (opt : HammingIterOpt) (x : List Nat), x ∈ one_hamming_iter seq opt →
          x.length = seq.length ∧ diffCount seq x = 1) := by
  refine ⟨?_, ?_, ?_, ?_⟩
  · rw [one_hamming_iter_eq]
    exact (oneHammingOut_length seq hv).1
  · rw [one_hamming_iter_eq]
    exact (oneHammingOut_length seq hv).2
  · intro opt
    rw [one_hamming_iter_eq]
    exact oneHammingOut_nodup _ seq
  · intro opt x hx
    rw [one_hamming_iter_eq] at hx
    exact oneHammingOut_mem _ seq x hx

/-- Witness for claim C2 at the concrete source "GAT". -/
theorem claim_C2_witness :
    (one_hamming_iter [71, 65, 84] HammingIterOpt.SkipNBase).length = 9 := by
  have h := (claim_C2_one_hamming_census [71, 65, 84] (by decide) (by decide)).1
  rw [h]
  decide

/-- The symbol values of the 2-bit code: A = 0, C = 1, G = 2, T = 3
(the mapping named by the specification; unsupported bytes are given an
arbitrary value, they are excluded by hypothesis wherever this is
used). -/
def symVal (b : Nat) : Nat :=
  if b = 65 then 0 else if b = 67 then 1 else if b = 71 then 2 else 3

/-- The base-4 value of a sequence read from the left: the leftmost
symbol is the most significant digit. -/
def specSum : List Nat → Nat
  | [] => 0
  | b :: rest => symVal b * 4 ^ rest.length + specSum rest

theorem base_val_of_mem {b : Nat} (hb : b ∈ [65, 67, 71, 84]) :
    base_val b = .ok (symVal b) ∧ symVal b ≤ 3 := by
  simp only [List.mem_cons, List.not_mem_nil, or_false] at hb
  rcases hb with hb | hb | hb | hb <;> subst hb <;> simp [base_val, symVal]

theorem specSum_snoc (xs : List Nat) (b : Nat) :
    specSum (xs ++ [b]) = 4 * specSum xs + symVal b := by
  induction xs with
  | nil => simp [specSum]
  | cons x xs ih =>
    simp [specSum, ih, pow_succ]
    ring

theorem specSum_eq_sum (l : List Nat) :
    specSum l = ∑ i ∈ Finset.range l.length, symVal (l.getD i 0) * 4 ^ (l.length - 1 - i) := by
  induction l with
  | nil => simp [specSum]
  | cons b rest ih =>
    rw [specSum, ih, List.length_cons, Finset.sum_range_succ']
    have h0 : symVal ((b :: rest).getD 0 0) * 4 ^ (rest.length + 1 - 1 - 0) =
        symVal b * 4 ^ rest.length := by simp
    rw [h0, Nat.add_comm]
    congr 1
    apply Finset.sum_congr rfl
    intro i hi
    have hi' : i < rest.length := Finset.mem_range.mp hi
    have : rest.length + 1 - 1 - (i + 1) = rest.length - 1 - i := by omega
    rw [List.getD_cons_succ, this]

theorem take_snoc (l : List Nat) : ∀ m, m < l.length →
    l.take (m + 1) = l.take m ++ [l.getD m 0] := by
  induction l with
  | nil => intro m hm; simp at hm
  | cons x xs ih =>
    intro m hm
    cases m with
    | zero => simp
    | succ m =>
      simp only [List.take_succ_cons, List.getD_cons_succ, List.cons_append]
      rw [← ih m (by simpa using hm)]

theorem encode_go_spec (seq : List Nat) (hv : ∀ b ∈ seq, b ∈ [65, 67, 71, 84]) :
    ∀ (n k res : Nat), k ≤ seq.length → seq.length - k ≤ n → res < 4 ^ k →
      encode_go seq seq.length k res =
        .ok (res + specSum (seq.take (seq.length - k)) * 4 ^ k) := by
  intro n
  induction n with
  | zero =>
    intro k res hk hn hres
    have hkL : k = seq.length := by omega
    rw [encode_go.eq_def, dif_neg (by omega)]
    simp [hkL, specSum]
  | succ n ih =>
    intro k res hk hn hres
    by_cases hkL : k < seq.length
    · rw [encode_go.eq_def, dif_pos hkL]
      have hmem : seq.getD (seq.length - 1 - k) 0 ∈ seq := by
        have hlt : seq.length - 1 - k < seq.length := by omega
        rw [List.getD_eq_getElem seq 0 hlt]
        exact seq.getElem_mem hlt
      obtain ⟨hbv, hle⟩ := base_val_of_mem (hv _ hmem)
      rw [hbv]
      simp only [Outcome.bind]
      have hpow : (4 : Nat) ^ k = 2 ^ (k * 2) := by
        rw [Nat.mul_comm, Nat.pow_mul]
      have hor : res ||| (symVal (seq.getD (seq.length - 1 - k) 0) <<< (k * 2)) =
          symVal (seq.getD (seq.length - 1 - k) 0) * 4 ^ k + res := by
        rw [Nat.shiftLeft_eq, ← hpow, Nat.lor_comm,
          Nat.mul_comm (symVal (seq.getD (seq.length - 1 - k) 0)) (4 ^ k), hpow,
          ← Nat.mul_add_lt_is_or (by rw [← hpow]; exact hres)]
      rw [hor]
      have hres' : symVal (seq.getD (seq.length - 1 - k) 0) * 4 ^ k + res < 4 ^ (k + 1) := by
        have h1 : symVal (seq.getD (seq.length - 1 - k) 0) * 4 ^ k ≤ 3 * 4 ^ k :=
          Nat.mul_le_mul_right _ hle
        have h2 : (4 : Nat) ^ (k + 1) = 4 * 4 ^ k := by ring
        omega
      rw [ih (k + 1) _ (by omega) (by omega) hres']
      have hsplit : seq.take (seq.length - k) =
          seq.take (seq.length - (k + 1)) ++ [seq.getD (seq.length - (k + 1)) 0] := by
        have h1 : seq.length - k = (seq.length - (k + 1)) + 1 := by omega
        rw [h1]
        exact take_snoc seq _ (by omega)
      have hidx : seq.length - 1 - k = seq.length - (k + 1) := by omega
      rw [hsplit, specSum_snoc, hidx]
      congr 1
      ring
    · have hkL' : k = seq.length := by omega
      rw [encode_go.eq_def, dif_neg (by omega)]
      simp [hkL', specSum]

/-- The encoding of a valid, N-free sequence of length at most 16 is its
base-4 value. -/
theorem encode_eq_specSum (seq : List Nat) (hv : ∀ b ∈ seq, b ∈ [65, 67, 71, 84])
    (hlen : seq.length ≤ 16) : encode_2bit_u32 seq = .ok (specSum seq) := by
  rw [encode_2bit_u32, if_pos hlen,
    encode_go_spec seq hv seq.length 0 0 (Nat.zero_le _) (by omega) (by norm_num)]
  simp

/-- Claim C3: for every sequence over A, C, G, T of length at most 16,
`encode_2bit_u32` returns the base-4 value with digits A = 0, C = 1,
G = 2, T = 3, the leftmost symbol most significant:
the sum of symVal at position i times 4 to the power (L - 1 - i). -/
theorem claim_C3_encode_formula (seq : List Nat)
    (hv : ∀ b ∈ seq, b ∈ [65, 67, 71, 84]) (hlen : seq.length ≤ 16) :
    encode_2bit_u32 seq =
      .ok (∑ i ∈ Finset.range seq.length, symVal (seq.getD i 0) * 4 ^ (seq.length - 1 - i)) := by
  rw [encode_eq_specSum seq hv hlen, specSum_eq_sum]

/-- Witness for claim C3: the five worked examples AAAAA, AAAAT, AAACA,
AACAA, AATA encode to 0, 3, 4, 16, 12. -/
theorem claim_C3_witness :
    encode_2bit_u32 [65, 65, 65, 65, 65] = .ok 0
      ∧ encode_2bit_u32 [65, 65, 65, 65, 84] = .ok 3
      ∧ encode_2bit_u32 [65, 65, 65, 67, 65] = .ok 4
      ∧ encode_2bit_u32 [65, 65, 67, 65, 65] = .ok 16
      ∧ encode_2bit_u32 [65, 65, 84, 65] = .ok 12 := by
  refine ⟨?_, ?_, ?_, ?_, ?_⟩ <;>
    · rw [claim_C3_encode_formula _ (by decide) (by decide)]
      simp [Finset.sum_range_succ, symVal]

theorem specSum_replicate_A : ∀ k, specSum (List.replicate k 65) = 0
  | 0 => rfl
  | k + 1 => by simp [List.replicate_succ, specSum, symVal, specSum_replicate_A k]

/-- Claim C10: the empty sequence encodes to 0, every all-'A' sequence of
length at most 16 encodes to 0, and hence the encoding does not
determine the sequence unless the length is fixed. -/
theorem claim_C10_encode_not_injective :
    encode_2bit_u32 [] = .ok 0
      ∧ (∀ k : Nat, k ≤ 16 → encode_2bit_u32 (List.replicate k 65) = .ok 0)
      ∧ (encode_2bit_u32 [65] = encode_2bit_u32 [] ∧ [65] ≠ ([] : List Nat)) := by
  have hrep : ∀ k : Nat, k ≤ 16 → encode_2bit_u32 (List.replicate k 65) = .ok 0 := by
    intro k hk
    have hv : ∀ b ∈ List.replicate k 65, b ∈ [65, 67, 71, 84] := by
      intro b hb
      rw [List.eq_of_mem_replicate hb]
      simp
    rw [encode_eq_specSum _ hv (by simpa using hk), specSum_replicate_A]
  refine ⟨?_, hrep, ?_, by simp⟩
  · simpa using hrep 0 (by norm_num)
  · have h1 := hrep 1 (by norm_num)
    have h0 := hrep 0 (by norm_num)
    simp only [List.replicate] at h1 h0
    rw [h1, h0]

/-- Witness for claim C10 at length 3. -/
theorem claim_C10_witness : encode_2bit_u32 (List.replicate 3 65) = .ok 0 :=
  claim_C10_encode_not_injective.2.1 3 (by norm_num)

/-- Claim C9: for every sequence and byte, a homopolymer suffix of
length zero is vacuously present, and so is a poly-T suffix of length
zero: the length test and the check of the last zero bytes both hold. -/
theorem claim_C9_zero_suffix (s : List Nat) (c : Nat) :
    has_homopolymer_suffix s c 0 = true ∧ has_polyt_suffix s 0 = true := by
  refine ⟨?_, ?_⟩ <;> simp [has_polyt_suffix, has_homopolymer_suffix]

/-- Claim C6: on a non-empty sequence `is_homopolymer` returns true
exactly when every stored byte equals the first byte, and on the empty
sequence it fails (the non-emptiness assertion) instead of silently
returning a boolean. -/
theorem claim_C6_is_homopolymer :
    (∀ (c : Nat) (rest : List Nat),
        (is_homopolymer (c :: rest) = .ok true ↔ ∀ x ∈ c :: rest, x = c))
      ∧ is_homopolymer [] = .panicked .emptySequence := by
  refine ⟨?_, rfl⟩
  intro c rest
  simp [is_homopolymer, List.all_eq_true]

/-- Witness for claim C6: AA is a homopolymer. -/
theorem claim_C6_witness : is_homopolymer [65, 65] = .ok true :=
  (claim_C6_is_homopolymer.1 65 [65]).mpr (by simp)

theorem validateBytesFrom_ok (l : List Nat) (hv : ∀ b ∈ l, b ∈ UPPER_ACGTN) :
    ∀ i, validateBytesFrom i l = .ok () := by
  induction l with
  | nil => intro i; rfl
  | cons s rest ih =>
    intro i
    rw [validateBytesFrom, if_pos (hv s (by simp))]
    exact ih (fun b hb => hv b (by simp [hb])) (i + 1)

theorem validateBytesFrom_err (l : List Nat) :
    ∀ i k, k < l.length → l.getD k 0 ∉ UPPER_ACGTN →
      (∀ j, j < k → l.getD j 0 ∈ UPPER_ACGTN) →
      validateBytesFrom i l = .panicked (.invalidAlphabet (l.getD k 0) (i + k)) := by
  induction l with
  | nil =>
    intro i k hk
    simp at hk
  | cons s rest ih =>
    intro i k hk hbad hgood
    cases k with
    | zero =>
      simp only [List.getD_cons_zero] at hbad ⊢
      rw [validateBytesFrom, if_neg hbad]
      simp
    | succ k =>
      have hs : s ∈ UPPER_ACGTN := by simpa using hgood 0 (Nat.succ_pos k)
      rw [validateBytesFrom, if_pos hs,
        ih (i + 1) k (by simpa using hk) (by simpa using hbad)
          (fun j hj => by simpa using hgood (j + 1) (by omega))]
      simp only [List.getD_cons_succ]
      have harith : i + 1 + k = i + (k + 1) := by omega
      rw [harith]

/-- Claim C4: construction succeeds exactly on inputs over ACGTN of
length at most 23, in which case `as_bytes` returns exactly the input in
order; on any input whose first out-of-alphabet byte is b at position k
the construction fails with the invalid-alphabet failure reporting b and
k. -/
theorem claim_C4_from_bytes (seq : List Nat) :
    ((∀ b ∈ seq, b ∈ UPPER_ACGTN) → seq.length ≤ 23 →
        from_bytes 23 seq = .ok seq ∧ as_bytes seq = seq)
      ∧ (∀ k, k < seq.length → seq.getD k 0 ∉ UPPER_ACGTN →
          (∀ j, j < k → seq.getD j 0 ∈ UPPER_ACGTN) →
          from_bytes 23 seq = .panicked (.invalidAlphabet (seq.getD k 0) k)) := by
  constructor
  · intro hv hlen
    rw [from_bytes, validate_bytes, validateBytesFrom_ok seq hv 0]
    simp [hlen, as_bytes]
  · intro k hk hbad hgood
    rw [from_bytes, validate_bytes, validateBytesFrom_err seq 0 k hk hbad hgood]
    simp

/-- Witness for claim C4: ACGTN is accepted and returned verbatim;
"ASDF" is rejected at byte 'S' (83), position 1. -/
theorem claim_C4_witness :
    from_bytes 23 [65, 67, 71, 84, 78] = .ok [65, 67, 71, 84, 78]
      ∧ from_bytes 23 [65, 83, 68, 70] = .panicked (.invalidAlphabet 83 1) := by
  constructor
  · exact ((claim_C4_from_bytes [65, 67, 71, 84, 78]).1 (by decide) (by decide)).1
  · refine (claim_C4_from_bytes [65, 83, 68, 70]).2 1 (by decide) (by decide) ?_
    intro j hj
    interval_cases j
    decide

theorem validateBytesFrom_abort (l : List Nat) :
    ∀ i, (∃ b ∈ l, b ∉ UPPER_ACGTN) → ∃ p, validateBytesFrom i l = .panicked p := by
  induction l with
  | nil =>
    intro i hex
    simp at hex
  | cons s rest ih =>
    intro i hex
    by_cases hs : s ∈ UPPER_ACGTN
    · rw [validateBytesFrom, if_pos hs]
      apply ih (i + 1)
      obtain ⟨b, hb, hbn⟩ := hex
      rcases List.mem_cons.mp hb with rfl | hb'
      · exact absurd hs hbn
      · exact ⟨b, hb', hbn⟩
    · rw [validateBytesFrom, if_neg hs]
      exact ⟨_, rfl⟩

theorem encode_go_abort (seq : List Nat) :
    ∀ n k res, seq.length - k ≤ n →
      (∃ j, j < seq.length - k ∧ seq.getD j 0 ∉ [65, 67, 71, 84]) →
      ∃ p, encode_go seq seq.length k res = .panicked p := by
  intro n
  induction n with
  | zero =>
    intro k res hn hex
    obtain ⟨j, hj, _⟩ := hex
    omega
  | succ n ih =>
    intro k res hn hex
    obtain ⟨j, hj, hbad⟩ := hex
    have hkL : k < seq.length := by omega
    rw [encode_go.eq_def, dif_pos hkL]
    by_cases hb : seq.getD (seq.length - 1 - k) 0 ∈ [65, 67, 71, 84]
    · obtain ⟨hbv, _⟩ := base_val_of_mem hb
      rw [hbv]
      simp only [Outcome.bind]
      apply ih (k + 1) _ (by omega)
      have hne : j ≠ seq.length - 1 - k := by
        intro h
        rw [h] at hbad
        exact hbad hb
      exact ⟨j, by omega, hbad⟩
    · have hpan : base_val (seq.getD (seq.length - 1 - k) 0) = .panicked .unsupportedSymbol := by
        simp only [List.mem_cons, List.not_mem_nil, or_false, not_or] at hb
        unfold base_val
        rw [if_neg hb.1, if_neg hb.2.1, if_neg hb.2.2.1, if_neg hb.2.2.2]
      rw [hpan]
      exact ⟨_, rfl⟩

/-- Claim C5 counterexample: constructing from the invalid input "ASDF"
aborts (`Outcome.isAbort`, modelling a Rust panic terminating the
process); no error value of an `ErrorKind` taxonomy is returned to the
caller — the source has no such return type — so the claim that every
failure "returns an error value and does not terminate the program" is
false at this input. -/
theorem claim_C5_counterexample : (from_bytes 23 [65, 83, 68, 70]).isAbort = true := by
  decide

/-- Claim C5 amended: every construction and encoding failure (invalid
alphabet byte, capacity exceeded, unsupported symbol for encoding,
empty-sequence precondition) aborts via panic — the invalid-alphabet
panic reporting the offending byte and position — rather than returning
an error value. -/
theorem claim_C5_amended_panics :
    (∀ seq : List Nat, (∃ b ∈ seq, b ∉ UPPER_ACGTN) → (from_bytes 23 seq).isAbort = true)
      ∧ (∀ seq : List Nat, 23 < seq.length → (from_bytes 23 seq).isAbort = true)
      ∧ (is_homopolymer []).isAbort = true
      ∧ (∀ seq : List Nat, 16 < seq.length → (encode_2bit_u32 seq).isAbort = true)
      ∧ (∀ seq : List Nat, seq.length ≤ 16 →
          (∃ j, j < seq.length ∧ seq.getD j 0 ∉ [65, 67, 71, 84]) →
          (encode_2bit_u32 seq).isAbort = true) := by
  refine ⟨?_, ?_, rfl, ?_, ?_⟩
  · intro seq hex
    obtain ⟨p, hp⟩ := validateBytesFrom_abort seq 0 hex
    rw [from_bytes, validate_bytes, hp]
    rfl
  · intro seq hlen
    rw [from_bytes]
    cases hval : validate_bytes seq with
    | ok a => rw [if_neg (by omega)]; rfl
    | panicked p => rfl
  · intro seq hlen
    rw [encode_2bit_u32, if_neg (by omega)]
    rfl
  · intro seq hlen hex
    rw [encode_2bit_u32, if_pos hlen]
    obtain ⟨p, hp⟩ := encode_go_abort seq seq.length 0 0 (by omega) (by simpa using hex)
    rw [hp]
    rfl

/-- Witness for the amended claim C5: lowercase "ag" and a 40-base
sequence abort at construction; a length-17 sequence and a sequence
containing 'N' abort at encoding. -/
theorem claim_C5_witness :
    (from_bytes 23 [97, 103]).isAbort = true
      ∧ (from_bytes 23 (List.replicate 40 71)).isAbort = true
      ∧ (encode_2bit_u32 (List.replicate 17 65)).isAbort = true
      ∧ (encode_2bit_u32 [65, 78]).isAbort = true := by
  refine ⟨?_, ?_, ?_, ?_⟩
  · exact claim_C5_amended_panics.1 [97, 103] (by decide)
  · exact claim_C5_amended_panics.2.1 _ (by simp)
  · exact claim_C5_amended_panics.2.2.2.1 _ (by simp)
  · exact claim_C5_amended_panics.2.2.2.2 [65, 78] (by decide) ⟨1, by decide, by decide⟩

/-- Modelled from the spec: the order on sequence containers (the
`Ord` implementation of the backing `ByteArray`, src/array.rs, is not
part of the sources; spec section 3 fixes it as the lexicographic order
of the underlying byte sequences).  Three-way byte-lexicographic
comparison. -/
def sseqCmp : List Nat → List Nat → Ordering
  | [], [] => .eq
  | [], _ :: _ => .lt
  | _ :: _, [] => .gt
  | x :: xs, y :: ys => if x < y then .lt else if y < x then .gt else sseqCmp xs ys

theorem sseqCmp_lt_iff_lex : ∀ s t : List Nat, sseqCmp s t = .lt ↔ List.Lex (· < ·) s t := by
  intro s
  induction s with
  | nil =>
    intro t
    cases t with
    | nil => simp [sseqCmp, List.Lex.not_nil_right]
    | cons b bt => simp [sseqCmp, List.Lex.nil]
  | cons a at_ ih =>
    intro t
    cases t with
    | nil => simp [sseqCmp, List.Lex.not_nil_right]
    | cons b bt =>
      by_cases hab : a < b
      · simp only [sseqCmp, if_pos hab, true_iff]
        exact List.Lex.rel hab
      · by_cases hba : b < a
        · simp only [sseqCmp, if_neg hab, if_pos hba]
          constructor
          · intro h
            exact absurd h (by simp)
          · intro h
            cases h with
            | cons h => exact absurd hba (lt_irrefl a)
            | rel h => exact absurd h (lt_asymm hba)
        · have heq : a = b := by omega
          subst heq
          simp only [sseqCmp, if_neg hab, if_neg hba]
          rw [ih bt, List.Lex.cons_iff]

theorem sseqCmp_eq_iff : ∀ s t : List Nat, sseqCmp s t = .eq ↔ s = t := by
  intro s
  induction s with
  | nil =>
    intro t
    cases t <;> simp [sseqCmp]
  | cons a at_ ih =>
    intro t
    cases t with
    | nil => simp [sseqCmp]
    | cons b bt =>
      by_cases hab : a < b
      · simp [sseqCmp, hab]
        omega
      · by_cases hba : b < a
        · simp [sseqCmp, hab, hba]
          omega
        · have heq : a = b := by omega
          subst heq
          simp [sseqCmp, hab, hba, ih bt]

/-- Claim C7: the container order is byte-lexicographic order of the
stored symbol sequences — it coincides with the mathematical
lexicographic order (hence sorting containers orders them exactly as
their raw byte sequences), equality holds exactly for identical
sequences, a strict prefix orders before any strict extension, and at
the first differing byte the comparison follows the bytes' ASCII
order. -/
theorem claim_C7_order_lexicographic :
    (∀ s t : List Nat, sseqCmp s t = .lt ↔ List.Lex (· < ·) s t)
      ∧ (∀ s t : List Nat, sseqCmp s t = .eq ↔ s = t)
      ∧ (∀ (s u : List Nat) (a : Nat), sseqCmp s (s ++ a :: u) = .lt)
      ∧ (∀ (u s t : List Nat) (a b : Nat),
          (a < b → sseqCmp (u ++ a :: s) (u ++ b :: t) = .lt)
            ∧ (b < a → sseqCmp (u ++ a :: s) (u ++ b :: t) = .gt)) := by
  refine ⟨sseqCmp_lt_iff_lex, sseqCmp_eq_iff, ?_, ?_⟩
  · intro s
    induction s with
    | nil => intro u a; rfl
    | cons x xs ih =>
      intro u a
      simp [sseqCmp, lt_irrefl, ih u a]
  · intro u
    induction u with
    | nil =>
      intro s t a b
      constructor
      · intro hab
        simp [sseqCmp, hab]
      · intro hba
        have hab : ¬a < b := by omega
        simp [sseqCmp, hab, hba]
    | cons x u ih =>
      intro s t a b
      constructor
      · intro hab
        simpa [sseqCmp, lt_irrefl] using (ih s t a b).1 hab
      · intro hba
        simpa [sseqCmp, lt_irrefl] using (ih s t a b).2 hba

/-- Witness for claim C7: "C" orders before its strict extension "CA";
"CG" and "CT" are ordered by their first differing byte. -/
theorem claim_C7_witness :
    sseqCmp [67] [67, 65] = .lt ∧ sseqCmp [67, 71] [67, 84] = .lt
      ∧ sseqCmp [67, 84] [67, 71] = .gt := by
  refine ⟨?_, ?_, ?_⟩
  · exact claim_C7_order_lexicographic.2.2.1 [67] [] 65
  · exact (claim_C7_order_lexicographic.2.2.2 [67] [] [] 71 84).1 (by norm_num)
  · exact (claim_C7_order_lexicographic.2.2.2 [67] [] [] 84 71).2 (by norm_num)

theorem validate_bytes_ok (l : List Nat) (hv : ∀ b ∈ l, b ∈ UPPER_ACGTN) :
    validate_bytes l = .ok () :=
  validateBytesFrom_ok l hv 0

/-- Claim C8: pushing s1 then s2 onto an empty container (when the
total length fits the capacity 23 and both are over ACGTN) equals
constructing directly from the concatenation of s1 and s2. -/
theorem claim_C8_push_concat (s1 s2 : List Nat)
    (h1 : ∀ b ∈ s1, b ∈ UPPER_ACGTN) (h2 : ∀ b ∈ s2, b ∈ UPPER_ACGTN)
    (hlen : s1.length + s2.length ≤ 23) :
    (push 23 sseq_new s1).bind (fun mid => push 23 mid s2) = from_bytes 23 (s1 ++ s2) := by
  have hv12 : ∀ b ∈ s1 ++ s2, b ∈ UPPER_ACGTN := by
    intro b hb
    rcases List.mem_append.mp hb with hb | hb
    · exact h1 b hb
    · exact h2 b hb
  rw [push, validate_bytes_ok s1 h1]
  rw [sseq_new]
  rw [if_pos (by simpa using Nat.le_trans (Nat.le_add_right _ _) hlen)]
  simp only [Outcome.bind, List.nil_append]
  rw [push, validate_bytes_ok s2 h2, if_pos (by omega)]
  rw [from_bytes, validate_bytes_ok _ hv12, if_pos (by simpa using hlen)]

/-- Witness for claim C8: pushing "A" then "CG" equals constructing
"ACG" directly. -/
theorem claim_C8_witness :
    (push 23 sseq_new [65]).bind (fun mid => push 23 mid [67, 71]) = .ok [65, 67, 71] := by
  rw [claim_C8_push_concat [65] [67, 71] (by decide) (by decide) (by decide)]
  decide

end FastqSet
